import Mathlib

/-!
# Verification of the deduper catalog and build engine

Shallow embedding of the deduper program (Rust sources `src/database.rs`,
`src/main.rs`, `src/extractor.rs`) and proofs about its catalog queries,
upsert semantics, build-time placement and optimize workflow.

The SQLite table `files` is modelled as a list of rows carrying an explicit
`rowid` (SQLite assigns `max rowid + 1` on insert; `INSERT OR REPLACE`
deletes the conflicting row and inserts a fresh one with a fresh rowid).
-/

namespace Deduper

/-- The stored column values of one catalog row, mirroring the `files`
table schema in `CREATE_TABLE_FILES` (`database.rs`): `path TEXT PRIMARY KEY`,
`size_bytes INTEGER NOT NULL CHECK (size_bytes >= 0)` (hence `Nat`),
`blake3 TEXT NOT NULL`, `created_at INTEGER NOT NULL` (unix seconds, hence
`Int`), `optimized TEXT` (nullable), `is_original INTEGER NOT NULL DEFAULT 0`
(a boolean), `media_type TEXT NOT NULL`. -/
structure FileData where
  path : String
  size_bytes : Nat
  blake3 : String
  created_at : Int
  optimized : Option String
  is_original : Bool
  media_type : String
deriving Repr, DecidableEq

/-- A physical row of the `files` table: the stored columns plus the SQLite
`rowid` (the table has a TEXT primary key, so `rowid` is the implicit
auto-assigned integer key; it records insertion order). -/
structure FileRow extends FileData where
  rowid : Nat
deriving Repr, DecidableEq

/-- The catalog: the `files` table, as its list of rows (scan order =
rowid order, which the model keeps sorted by construction). -/
abbrev Table := List FileRow

/-- The equivalence-class key `(blake3, size_bytes)` used by every
`GROUP BY` / `PARTITION BY` in `database.rs`. -/
def keyOf (r : FileRow) : String × Nat := (r.blake3, r.size_bytes)

/-- Two rows are duplicate content when their class keys agree
(`f2.blake3 = files.blake3 AND f2.size_bytes = files.size_bytes`). -/
def sameClass (a b : FileRow) : Bool :=
  a.blake3 == b.blake3 && a.size_bytes == b.size_bytes

/-- SQLite assigns `max existing rowid + 1` to a fresh insert. -/
def nextRowid (t : Table) : Nat :=
  (t.foldr (fun r acc => max r.rowid acc) 0) + 1

/-- `INSERT OR REPLACE INTO files ...` (`INSERT_FILE`, `database.rs`):
any existing row with the same `path` primary key is deleted and the new
row is inserted with a fresh rowid (appended, since rowids grow). -/
def insert_file (t : Table) (f : FileData) : Table :=
  (t.filter (fun r => r.path != f.path)) ++ [{ toFileData := f, rowid := nextRowid t }]

/-- The catalog row currently stored for a path (lookup by primary key). -/
def rowFor (t : Table) (p : String) : Option FileRow :=
  t.find? (fun r => r.path == p)

/-- The table obtained by a sequence of `insert_file` upserts starting from
an empty catalog. -/
def tableOf (l : List FileData) : Table :=
  l.foldl insert_file []

/-- The `FileRecord` built by `process_file` (`main.rs`): a scan upsert
always carries `optimized: None` and `is_original: false`. -/
def process_file_record (path : String) (size_bytes : Nat) (hash : String)
    (created_at : Int) (media_type : String) : FileData :=
  { path := path, size_bytes := size_bytes, blake3 := hash,
    created_at := created_at, optimized := none, is_original := false,
    media_type := media_type }

/-- Lexicographic "earlier" order on `(created_at, rowid)` used by
`ORDER BY created_at ASC, rowid ASC` in `MARK_ORIGINAL_FILES`. -/
def lexLe (a b : FileRow) : Bool :=
  a.created_at < b.created_at || (a.created_at == b.created_at && a.rowid ≤ b.rowid)

/-- The first row of a list under `ORDER BY created_at ASC, rowid ASC LIMIT 1`:
the minimum of the list in the `lexLe` order. -/
def lexMin : List FileRow → Option FileRow
  | [] => none
  | a :: rest =>
    match lexMin rest with
    | none => some a
    | some b => some (if lexLe a b then a else b)

/-- The rows of `t` in the class of `r`
(`WHERE f2.blake3 = files.blake3 AND f2.size_bytes = files.size_bytes`). -/
def classRowsOf (t : Table) (r : FileRow) : List FileRow :=
  t.filter (sameClass r)

/-- The `MARK_ORIGINAL_FILES` statement (`database.rs`): every row gets
`is_original = 1` exactly when its rowid is the one selected by
`SELECT rowid FROM files f2 WHERE <same class> ORDER BY created_at ASC,
rowid ASC LIMIT 1`, else `is_original = 0`. -/
def mark_original_files (t : Table) : Table :=
  t.map (fun r =>
    { r with is_original := (lexMin (classRowsOf t r)).map FileRow.rowid == some r.rowid })

/-- `FIND_UNOPTIMIZED_VIDEOS` (`database.rs`): `SELECT * FROM files WHERE
media_type = 'video' AND is_original = 1 AND optimized IS NULL`. -/
def find_unoptimized_videos (t : Table) : List FileRow :=
  t.filter (fun r => r.media_type == "video" && r.is_original && r.optimized == none)

/-- `COUNT_FILES` (`database.rs`): `SELECT COUNT(path) FROM files`. -/
def count_files (t : Table) : Nat := t.length

/-- The distinct class keys, in first-occurrence order (the groups produced
by `GROUP BY blake3, size_bytes`); `seen` accumulates keys already listed. -/
def distinctKeysAux : List (String × Nat) → List (String × Nat) → List (String × Nat)
  | [], _ => []
  | k :: rest, seen =>
    if k ∈ seen then distinctKeysAux rest seen
    else k :: distinctKeysAux rest (k :: seen)

/-- The group keys of the catalog (`GROUP BY blake3, size_bytes`). -/
def groupKeys (t : Table) : List (String × Nat) :=
  distinctKeysAux (t.map keyOf) []

/-- The size of the class of key `k` (`COUNT(*)` within one group). -/
def classCount (t : Table) (k : String × Nat) : Nat :=
  (t.map keyOf).count k

/-- `COUNT_REDUNDANT_FILES` (`database.rs`): `SELECT SUM(cnt - 1) FROM
(SELECT COUNT(*) AS cnt FROM files GROUP BY blake3, size_bytes HAVING
cnt > 1)`. When no group has `cnt > 1` the aggregate `SUM` over the empty
set is SQL `NULL`, which `count_redundant_files` (reading the column as
`i64`) turns into an error: modelled by `none`. -/
def count_redundant_files (t : Table) : Option Nat :=
  let dupCounts := ((groupKeys t).map (classCount t)).filter (fun c => decide (1 < c))
  match dupCounts with
  | [] => none
  | l => some ((l.map (fun c => c - 1)).sum)

/-! ## Calendar and timestamp formatting

`build` formats `file.created_at` (a `chrono::DateTime<Local>` rebuilt from
the stored unix seconds) with `%d-%m-%Y_%H:%M:%S` and uses `.year()` for the
destination directory. The civil-calendar conversion below is the standard
days-to-Gregorian algorithm; the `Local` timezone offset is process
environment state outside the program, modelled as UTC (offset zero), which
no claim depends on. -/

/-- Gregorian `(year, month, day)` of a day count since 1970-01-01. -/
def civilFromDays (z : Int) : Int × Nat × Nat :=
  let z' := z + 719468
  let era := z'.ediv 146097
  let doe := (z'.emod 146097).toNat
  let yoe := (doe - doe / 1460 + doe / 36524 - doe / 146096) / 365
  let doy := doe - (365 * yoe + yoe / 4 - yoe / 100)
  let mp := (5 * doy + 2) / 153
  let d := doy - (153 * mp + 2) / 5 + 1
  let m := if mp < 10 then mp + 3 else mp - 9
  ((yoe : Int) + era * 400 + (if m ≤ 2 then 1 else 0), m, d)

/-- `chrono`'s `.year()` of the datetime stored as unix seconds. -/
def yearOf (ts : Int) : Int := (civilFromDays (ts.ediv 86400)).1

/-- Zero-pad a number to two digits (`%d`, `%m`, `%H`, `%M`, `%S`). -/
def pad2 (n : Nat) : String := if n < 10 then "0" ++ toString n else toString n

/-- Zero-pad a year to four digits (`%Y`). -/
def pad4 (y : Int) : String :=
  if y < 0 then "-" ++ toString (-y)
  else
    let n := y.toNat
    if n < 10 then "000" ++ toString n
    else if n < 100 then "00" ++ toString n
    else if n < 1000 then "0" ++ toString n
    else toString n

/-- `timestamp.format("%d-%m-%Y_%H:%M:%S")` (`main.rs`, `build`). -/
def formatTimestamp (ts : Int) : String :=
  let c := civilFromDays (ts.ediv 86400)
  let sod := (ts.emod 86400).toNat
  pad2 c.2.2 ++ "-" ++ pad2 c.2.1 ++ "-" ++ pad4 c.1 ++ "_" ++
    pad2 (sod / 3600) ++ ":" ++ pad2 (sod % 3600 / 60) ++ ":" ++ pad2 (sod % 60)

/-! ## Paths, extensions and MIME guessing -/

/-- The file-name component of a path: the characters after the last `/`. -/
def fileNameChars (p : String) : List Char :=
  (p.data.reverse.takeWhile (fun c => c ≠ '/')).reverse

/-- Rust `Path::extension()` on a path string: the portion of the file name
after its last dot, none when the name has no dot besides a leading one
(hidden files like `.bashrc` have no extension). -/
def extensionOf (p : String) : Option String :=
  match fileNameChars p with
  | [] => none
  | _ :: restName =>
    if restName.contains '.' then
      some (String.mk ((restName.reverse.takeWhile (fun c => c ≠ '.')).reverse))
    else none

/-- `extract_mimetype` (`extractor.rs`):
`mime_guess::from_path(path).first_or_octet_stream()`. The `mime_guess`
crate is an external collaborator that maps a path's extension to a MIME
string; its lookup table is the parameter `db`. A path with no extension or
an unknown extension yields `application/octet-stream`. -/
def extract_mimetype (db : String → Option String) (p : String) : String :=
  match extensionOf p with
  | none => "application/octet-stream"
  | some e => (db e).getD "application/octet-stream"

/-- `Mime::type_().as_str()`: the top-level part of a MIME string (the
characters before the first `/`). -/
def mimeTop (m : String) : String := String.mk (m.data.takeWhile (fun c => c ≠ '/'))

/-! ## The build engine (`build`, `main.rs`)

The filesystem is modelled as the list of file paths that exist (`fs`);
`dest_path.exists()` is membership, `symlink` fails exactly when the
destination already exists (the `cfg(unix)` branch; the error text in
`build` names that case), and `create_dir_all` records the directory and
succeeds. The loop body uses `?` on `create_dir_all` and `symlink`, so a
step error aborts the whole run. -/

structure BuildCfg where
  destination : String
  selector : Option String
  split_at : Option Nat
deriving Repr, DecidableEq

structure BuildState where
  fs : List String
  dirs : List String
  total_bytes : Nat
  placed : List (String × String)
deriving Repr, DecidableEq

/-- The selector filter: `if let Some(ref selector) = selector
&& media_type != selector { continue; }`. -/
def passes_selector (sel : Option String) (mt : String) : Bool :=
  match sel with
  | some s => mt == s
  | none => true

/-- The destination directory of one representative:
`destination.join(shard_N).join(media_type).join(year)` when sharding,
with `N = total_bytes / split_at + 1`, else without the shard segment. -/
def dest_dir_for (cfg : BuildCfg) (mt : String) (total : Nat) (ts : Int) : String :=
  match cfg.split_at with
  | some k =>
    cfg.destination ++ "/shard_" ++ toString (total / k + 1) ++ "/" ++ mt ++
      "/" ++ toString (yearOf ts)
  | none => cfg.destination ++ "/" ++ mt ++ "/" ++ toString (yearOf ts)

/-- The candidate destination paths: `time_string.ext` for the base name and
`time_string_i.ext` for suffix `i`. -/
def cand_name (dir tsStr ext : String) : Option Nat → String
  | none => dir ++ "/" ++ tsStr ++ "." ++ ext
  | some i => dir ++ "/" ++ tsStr ++ "_" ++ toString i ++ "." ++ ext

/-- The collision loop `for i in 1..10` of `build`: while the current
candidate exists, replace it by the candidate with the next suffix; the
ninth suffix is assigned without an existence check (fuel runs out). -/
def suffix_loop (ex : String → Bool) (dir tsStr ext : String) :
    Nat → Nat → String → String
  | 0, _, cur => cur
  | fuel + 1, i, cur =>
    if ex cur then suffix_loop ex dir tsStr ext fuel (i + 1) (cand_name dir tsStr ext (some i))
    else cur

/-- The destination path finally used by one `build` iteration. -/
def resolve_dest (ex : String → Bool) (dir tsStr ext : String) : String :=
  suffix_loop ex dir tsStr ext 9 1 (cand_name dir tsStr ext none)

/-- The selector filter applied to one representative: the media type is
recomputed from the file path (`extract_mimetype(path)` then `.type_()`),
not read from the stored `media_type` column. -/
def passes_filter (cfg : BuildCfg) (db : String → Option String) (f : FileRow) : Bool :=
  passes_selector cfg.selector (mimeTop (extract_mimetype db f.path))

/-- The destination directory one `build` iteration computes (after
`total_bytes += file.size_bytes`). -/
def step_dest_dir (cfg : BuildCfg) (db : String → Option String)
    (st : BuildState) (f : FileRow) : String :=
  dest_dir_for cfg (mimeTop (extract_mimetype db f.path))
    (st.total_bytes + f.size_bytes) f.created_at

/-- The destination path one `build` iteration settles on after the
collision loop. -/
def step_dest_path (cfg : BuildCfg) (db : String → Option String)
    (st : BuildState) (f : FileRow) : String :=
  resolve_dest (fun p => st.fs.contains p) (step_dest_dir cfg db st f)
    (formatTimestamp f.created_at) ((extensionOf f.path).getD "bin")

/-- One iteration of the `build` loop (`main.rs` lines 165-225) for one
representative: recompute the media type from the file path, apply the
selector filter (`continue` keeps the state unchanged), accumulate
`total_bytes`, compute the destination directory and collision-free name,
create the directory, and symlink; a failed symlink (destination exists)
yields the per-step error that `?` turns into an abort of `build`. -/
def build_step (cfg : BuildCfg) (db : String → Option String)
    (st : BuildState) (f : FileRow) : BuildState × Option String :=
  if !passes_filter cfg db f then (st, none)
  else
    let destDir := step_dest_dir cfg db st f
    let destPath := step_dest_path cfg db st f
    let st1 := { st with total_bytes := st.total_bytes + f.size_bytes,
                         dirs := destDir :: st.dirs }
    if st.fs.contains destPath then
      (st1, some ("symlink already exists or failed " ++ destPath))
    else
      ({ st1 with fs := destPath :: st.fs,
                  placed := (f.path, destPath) :: st.placed }, none)

/-- The `build` loop over the representative stream: the `?` operator on a
step error returns immediately, so nothing after the first failure runs. -/
def build_run (cfg : BuildCfg) (db : String → Option String) :
    BuildState → List FileRow → BuildState × Option String
  | st, [] => (st, none)
  | st, f :: rest =>
    match build_step cfg db st f with
    | (st', none) => build_run cfg db st' rest
    | (st', some e) => (st', some e)

/-- The initial build state over a pre-existing filesystem. -/
def initState (fs0 : List String) : BuildState :=
  { fs := fs0, dirs := [], total_bytes := 0, placed := [] }

/-! ## The unique-representative queries (`FIND_UNIQUE_FILES_ORDERED`)

`SELECT * FROM (SELECT *, ROW_NUMBER() OVER (PARTITION BY blake3,
size_bytes) AS rn FROM files ORDER BY created_at ASC) ranked WHERE rn = 1`.

The window `ROW_NUMBER() OVER (PARTITION BY ...)` has no `ORDER BY` inside
the window, so SQLite numbers the rows of each partition in an unspecified
processing order; the statement-level `ORDER BY created_at` sorts the
result only after the window has been computed. The model therefore takes
the processing order as an explicit parameter `proc` (any permutation of
the table): `rn = 1` keeps the first row of each class in `proc`, and the
final sort orders those representatives by `created_at`. -/

/-- The rows with `rn = 1`: the first row of each class key in processing
order (`seen` accumulates the class keys already numbered). -/
def first_per_class : List FileRow → List (String × Nat) → List FileRow
  | [], _ => []
  | r :: rest, seen =>
    if keyOf r ∈ seen then first_per_class rest seen
    else r :: first_per_class rest (keyOf r :: seen)

/-- The statement-level `ORDER BY created_at ASC`. -/
def createdLe (a b : FileRow) : Prop := a.created_at ≤ b.created_at

instance : DecidableRel createdLe := fun a b =>
  inferInstanceAs (Decidable (a.created_at ≤ b.created_at))

instance : IsTotal FileRow createdLe :=
  ⟨fun a b => Int.le_total a.created_at b.created_at⟩

instance : IsTrans FileRow createdLe :=
  ⟨fun _ _ _ h h' => le_trans h h'⟩

/-- `FIND_UNIQUE_FILES_ORDERED` evaluated with window processing order
`proc`: one representative per class (the first in `proc`), sorted by
creation time. -/
def find_unique_files_ordered (proc : List FileRow) : List FileRow :=
  List.insertionSort createdLe (first_per_class proc [])

/-! ## The optimize engine (`optimize`, `main.rs`) -/

/-- The deterministic temp artifact path `format!("{}_{}.mkv", blake3,
size_bytes)` joined under the temp directory. -/
def temp_artifact_path (temp : String) (f : FileRow) : String :=
  temp ++ "/" ++ f.blake3 ++ "_" ++ toString f.size_bytes ++ ".mkv"

/-- The record written back after a successful transcode (`optimize`,
lines 73-80): `size_bytes` becomes the new artifact's length, `optimized`
its path; every other stored field is carried over from the row read. -/
def optimized_record (temp : String) (newSize : Nat) (f : FileRow) : FileData :=
  { f.toFileData with size_bytes := newSize,
                      optimized := some (temp_artifact_path temp f) }

/-! ## Upsert lemmas -/

theorem rowFor_insert_self (t : Table) (f : FileData) :
    rowFor (insert_file t f) f.path = some { toFileData := f, rowid := nextRowid t } := by
  unfold rowFor insert_file
  rw [List.find?_append]
  have h1 : List.find? (fun r => r.path == f.path)
      (t.filter (fun r => r.path != f.path)) = none := by
    rw [List.find?_eq_none]
    intro x hx
    rcases List.mem_filter.mp hx with ⟨-, hpx⟩
    simp only [bne_iff_ne, ne_eq] at hpx
    simp [hpx]
  rw [h1]
  simp [List.find?]

theorem find?_path_filter (t : Table) (f : FileData) (p : String) (hp : p ≠ f.path) :
    List.find? (fun r => r.path == p) (t.filter (fun r => r.path != f.path)) =
      List.find? (fun r => r.path == p) t := by
  induction t with
  | nil => rfl
  | cons a t ih =>
    by_cases ha : a.path = f.path
    · have h1 : ¬((fun r : FileRow => r.path != f.path) a = true) := by simp [ha]
      have h2 : ¬((fun r : FileRow => r.path == p) a = true) := by
        simp only [beq_iff_eq, ha]
        exact Ne.symm hp
      rw [@List.filter_cons_of_neg FileRow (fun r => r.path != f.path) a t h1,
        @List.find?_cons_of_neg FileRow (fun r => r.path == p) a t h2, ih]
    · have h1 : (fun r : FileRow => r.path != f.path) a = true := by simp [ha]
      rw [@List.filter_cons_of_pos FileRow (fun r => r.path != f.path) a t h1]
      by_cases hap : a.path = p
      · rw [@List.find?_cons_of_pos FileRow (fun r => r.path == p) a
            (List.filter (fun r => r.path != f.path) t) (by simp [hap]),
          @List.find?_cons_of_pos FileRow (fun r => r.path == p) a t (by simp [hap])]
      · rw [@List.find?_cons_of_neg FileRow (fun r => r.path == p) a
            (List.filter (fun r => r.path != f.path) t) (by simp [hap]),
          @List.find?_cons_of_neg FileRow (fun r => r.path == p) a t (by simp [hap]), ih]

theorem rowFor_insert_other (t : Table) (f : FileData) (p : String) (hp : p ≠ f.path) :
    rowFor (insert_file t f) p = rowFor t p := by
  unfold rowFor insert_file
  rw [List.find?_append, find?_path_filter t f p hp]
  have h2 : List.find? (fun r : FileRow => r.path == p)
      [{ toFileData := f, rowid := nextRowid t }] = none := by
    rw [List.find?_eq_none]
    intro x hx
    have hx' : x = { toFileData := f, rowid := nextRowid t } := List.mem_singleton.mp hx
    subst hx'
    simpa using Ne.symm hp
  rw [h2, Option.or_none]

theorem insert_file_paths_nodup (t : Table) (f : FileData)
    (h : (t.map (fun r => r.path)).Nodup) :
    ((insert_file t f).map (fun r => r.path)).Nodup := by
  unfold insert_file
  rw [List.map_append]
  have hsub : ((t.filter (fun r => r.path != f.path)).map (fun r => r.path)).Sublist
      (t.map (fun r => r.path)) := (List.filter_sublist t).map _
  refine (List.nodup_append).mpr ⟨hsub.nodup h, List.nodup_singleton _, ?_⟩
  intro a ha hb
  rcases List.mem_map.mp ha with ⟨r, hr, hpath⟩
  rcases List.mem_filter.mp hr with ⟨-, hne⟩
  simp only [bne_iff_ne, ne_eq] at hne
  have hb' : a = f.path := by simpa using hb
  exact hne (hpath.trans hb')

theorem tableOf_paths_nodup (l : List FileData) :
    ((tableOf l).map (fun r => r.path)).Nodup := by
  suffices h : ∀ acc : Table, (acc.map (fun r => r.path)).Nodup →
      ((l.foldl insert_file acc).map (fun r => r.path)).Nodup by
    exact h [] List.nodup_nil
  induction l with
  | nil => intro acc hacc; exact hacc
  | cons f l ih =>
    intro acc hacc
    exact ih (insert_file acc f) (insert_file_paths_nodup acc f hacc)

/-! ## Concrete data used by counterexamples and witnesses -/

/-- A small extension-to-MIME table standing in for the `mime_guess` crate's
built-in table (external collaborator data). -/
def exMimeDb : String → Option String :=
  fun e => if e == "jpg" then some "image/jpeg"
    else if e == "mp4" then some "video/mp4" else none

/-- A concrete catalog row. -/
def exRow (p : String) (sz : Nat) (hs : String) (ts : Int) (rid : Nat) : FileRow :=
  { path := p, size_bytes := sz, blake3 := hs, created_at := ts,
    optimized := none, is_original := false, media_type := "image", rowid := rid }

def exG1 : FileRow := exRow "/s/x.jpg" 10 "k1" 500 1

def exG2 : FileRow := exRow "/s/y.jpg" 10 "k2" 500 2

def exF1 : FileRow := exRow "/s/a.jpg" 40 "h1" 0 1

def exF2 : FileRow := exRow "/s/b.jpg" 40 "h2" 86400 2

def exF3 : FileRow := exRow "/s/c.jpg" 40 "h3" 172800 3

def exCfgPlain : BuildCfg := { destination := "/d", selector := none, split_at := none }

def exCfgVid : BuildCfg := { destination := "/d", selector := some "video", split_at := none }

def exCfg40 : BuildCfg := { destination := "/dst", selector := none, split_at := some 100 }

/-- A filesystem on which the base name and all nine suffixed names for
`exG1`'s destination already exist. -/
def exTaken : List String :=
  ["/d/image/1970/01-01-1970_00:08:20.jpg",
   "/d/image/1970/01-01-1970_00:08:20_1.jpg",
   "/d/image/1970/01-01-1970_00:08:20_2.jpg",
   "/d/image/1970/01-01-1970_00:08:20_3.jpg",
   "/d/image/1970/01-01-1970_00:08:20_4.jpg",
   "/d/image/1970/01-01-1970_00:08:20_5.jpg",
   "/d/image/1970/01-01-1970_00:08:20_6.jpg",
   "/d/image/1970/01-01-1970_00:08:20_7.jpg",
   "/d/image/1970/01-01-1970_00:08:20_8.jpg",
   "/d/image/1970/01-01-1970_00:08:20_9.jpg"]

/-- A row already optimized (as left by the Optimize Engine). -/
def exOptRow : FileRow :=
  { path := "/v/a.mp4", size_bytes := 5, blake3 := "h", created_at := 9,
    optimized := some "/t/h_5.mkv", is_original := true, media_type := "video",
    rowid := 1 }

/-! ## C8 — optimize preserves identity -/

/-- C8: for a row processed successfully by the Optimize Engine, the record
written back (`optimized_record`) keeps the row's `path`, `blake3`
(content hash), `created_at`, `media_type` and `is_original` unchanged,
sets `size_bytes` to the transcoded artifact's byte length and `optimized`
to the artifact's path, and after the write-back (`insert_file`, as in
`optimize`) the catalog row for that path holds exactly these fields. -/
theorem optimize_preserves_identity_c8 (t : Table) (temp : String)
    (newSize : Nat) (f : FileRow) :
    (optimized_record temp newSize f).path = f.path
  ∧ (optimized_record temp newSize f).blake3 = f.blake3
  ∧ (optimized_record temp newSize f).created_at = f.created_at
  ∧ (optimized_record temp newSize f).media_type = f.media_type
  ∧ (optimized_record temp newSize f).is_original = f.is_original
  ∧ (optimized_record temp newSize f).size_bytes = newSize
  ∧ (optimized_record temp newSize f).optimized = some (temp_artifact_path temp f)
  ∧ (rowFor (insert_file t (optimized_record temp newSize f)) f.path).map
      FileRow.toFileData = some (optimized_record temp newSize f) := by
  refine ⟨rfl, rfl, rfl, rfl, rfl, rfl, rfl, ?_⟩
  have h2 : (optimized_record temp newSize f).path = f.path := rfl
  rw [← h2, rowFor_insert_self]
  rfl

/-! ## C9 — who mutates `optimized` -/

/-- C9 counterexample: a catalog holding a row whose `optimized` is set; a
re-scan of the same path (`process_file`, which always upserts with
`optimized: None` through `INSERT OR REPLACE`) leaves the row with
`optimized` absent — an operation other than the Optimize Engine cleared a
previously set `optimized` value, refuting the claim. -/
theorem optimized_cleared_c9_counterexample :
    (rowFor [exOptRow] "/v/a.mp4").map (fun r => r.optimized)
        = some (some "/t/h_5.mkv")
  ∧ (rowFor (insert_file [exOptRow] (process_file_record "/v/a.mp4" 5 "h" 9 "video"))
        "/v/a.mp4").map (fun r => r.optimized) = some none := ⟨rfl, rfl⟩

/-- C9 amended: the optimize work queue (`FIND_UNOPTIMIZED_VIDEOS`) selects
only rows whose `optimized` is absent (and that are originals of media type
video), so the Optimize Engine sets `optimized` at most once per row within
its own runs; however a re-scan upsert of the same path replaces the whole
row and resets `optimized` to absent, so `optimized` is not mutated only by
the Optimize Engine. -/
theorem optimize_scope_c9_amended (t : Table) (p : String) (sz : Nat)
    (hs : String) (ts : Int) (mt : String) :
    (∀ r ∈ find_unoptimized_videos t,
      r.optimized = none ∧ r.is_original = true ∧ r.media_type = "video")
  ∧ (rowFor (insert_file t (process_file_record p sz hs ts mt)) p).map
      (fun r => r.optimized) = some none := by
  constructor
  · intro r hr
    rcases List.mem_filter.mp hr with ⟨-, hcond⟩
    simp only [Bool.and_eq_true, beq_iff_eq] at hcond
    exact ⟨hcond.2, hcond.1.2, hcond.1.1⟩
  · show (rowFor (insert_file t (process_file_record p sz hs ts mt))
        ((process_file_record p sz hs ts mt).path)).map (fun r => r.optimized) = some none
    rw [rowFor_insert_self]
    rfl

/-- C9 witness: the amended statement at a concrete catalog and re-scan. -/
theorem optimize_scope_c9_witness :
    (∀ r ∈ find_unoptimized_videos [exOptRow],
      r.optimized = none ∧ r.is_original = true ∧ r.media_type = "video")
  ∧ (rowFor (insert_file [exOptRow] (process_file_record "/v/a.mp4" 5 "h" 9 "video"))
        "/v/a.mp4").map (fun r => r.optimized) = some none :=
  optimize_scope_c9_amended [exOptRow] "/v/a.mp4" 5 "h" 9 "video"

/-! ## C3 — a placement failure aborts the build -/

/-- C3 counterexample: with the first representative's base name and all
nine suffixed names already existing, its placement fails and `build`
returns that error at once: the second representative, which on its own
would place fine, is never processed (nothing is placed at all). -/
theorem build_abort_c3_counterexample :
    (build_run exCfgPlain exMimeDb (initState exTaken) [exG1, exF2]).2
        = some "symlink already exists or failed /d/image/1970/01-01-1970_00:08:20_9.jpg"
  ∧ (build_run exCfgPlain exMimeDb (initState exTaken) [exG1, exF2]).1.placed = []
  ∧ (build_step exCfgPlain exMimeDb (initState exTaken) exF2).2 = none :=
  ⟨by decide, by decide, by decide⟩

/-- C3 amended: a placement failure for one representative aborts `build`
(the loop body propagates the error with the `?` operator), so the
representatives after the failing one are not processed. -/
theorem build_abort_c3_amended (cfg : BuildCfg) (db : String → Option String)
    (st : BuildState) (f : FileRow) (rest : List FileRow) (e : String)
    (h : (build_step cfg db st f).2 = some e) :
    build_run cfg db st (f :: rest) = ((build_step cfg db st f).1, some e) := by
  rcases hq : build_step cfg db st f with ⟨st2, e2⟩
  rw [hq] at h
  have h2 : e2 = some e := h
  subst h2
  simp [build_run, hq]

/-- C3 witness: the amended statement at the concrete failing stream. -/
theorem build_abort_c3_witness :
    build_run exCfgPlain exMimeDb (initState exTaken) [exG1, exF2]
      = ((build_step exCfgPlain exMimeDb (initState exTaken) exG1).1,
         some "symlink already exists or failed /d/image/1970/01-01-1970_00:08:20_9.jpg") :=
  build_abort_c3_amended exCfgPlain exMimeDb (initState exTaken) exG1 [exF2]
    "symlink already exists or failed /d/image/1970/01-01-1970_00:08:20_9.jpg" (by decide)

/-! ## C10 — media type is recomputed from the path during build -/

/-- C10: the media type that `build` uses for the selector filter and the
destination directory is recomputed from the representative's file path by
extension-based MIME guessing: a build step is invariant under any change
of the row's stored `media_type` field; `extract_mimetype` depends only on
the path's extension; and a row whose extension-derived type fails the
selector is skipped whatever its stored `media_type` says. -/
theorem media_type_recomputed_c10 (cfg : BuildCfg) (db : String → Option String)
    (st : BuildState) (f : FileRow) (m : String) (p q : String) :
    build_step cfg db st { f with media_type := m } = build_step cfg db st f
  ∧ (extensionOf p = extensionOf q → extract_mimetype db p = extract_mimetype db q)
  ∧ (passes_selector cfg.selector (mimeTop (extract_mimetype db f.path)) = false →
      build_step cfg db st f = (st, none))
  ∧ (passes_filter cfg db f = true →
      (build_step cfg db st f).1.dirs = step_dest_dir cfg db st f :: st.dirs) := by
  refine ⟨rfl, ?_, ?_, ?_⟩
  · intro h
    unfold extract_mimetype
    rw [h]
  · intro h
    simp [build_step, passes_filter, h]
  · intro h
    by_cases hex : st.fs.contains (step_dest_path cfg db st f) = true
    · have hex2 : step_dest_path cfg db st f ∈ st.fs := by simpa using hex
      simp [build_step, h, hex2]
    · have hex2 : ¬step_dest_path cfg db st f ∈ st.fs := by simpa using hex
      simp [build_step, h, hex2]

/-- C10 witness: at a concrete configuration with selector `video` and a
`.jpg` row stored with a bogus `media_type`, the step ignores the stored
field and skips the row by its extension-derived type. -/
theorem media_type_recomputed_c10_witness :
    build_step exCfgVid exMimeDb (initState []) { exG1 with media_type := "x" }
        = build_step exCfgVid exMimeDb (initState []) exG1
  ∧ extract_mimetype exMimeDb "/a/l.jpg" = extract_mimetype exMimeDb "/b/m.jpg"
  ∧ build_step exCfgVid exMimeDb (initState []) exG1 = (initState [], none)
  ∧ (build_step exCfgPlain exMimeDb (initState []) exG1).1.dirs
      = step_dest_dir exCfgPlain exMimeDb (initState []) exG1 :: (initState []).dirs := by
  have h := media_type_recomputed_c10 exCfgVid exMimeDb (initState []) exG1 "x"
    "/a/l.jpg" "/b/m.jpg"
  have h2 := media_type_recomputed_c10 exCfgPlain exMimeDb (initState []) exG1 "x"
    "/a/l.jpg" "/b/m.jpg"
  exact ⟨h.1, h.2.1 (by decide), h.2.2.1 (by decide), h2.2.2.2 (by decide)⟩

/-! ## C4 — upsert fully replaces, never duplicates a path -/

theorem rowFor_foldl_other (l2 : List FileData) (t : Table) (p : String)
    (h : ∀ g ∈ l2, g.path ≠ p) :
    rowFor (l2.foldl insert_file t) p = rowFor t p := by
  induction l2 generalizing t with
  | nil => rfl
  | cons g l2 ih =>
    rw [List.foldl_cons, ih _ (fun x hx => h x (List.mem_cons_of_mem g hx)),
      rowFor_insert_other t g p (Ne.symm (h g (List.mem_cons_self g l2)))]

theorem length_filter_path (t : Table) (p : String)
    (hnd : (t.map (fun r => r.path)).Nodup) (hmem : rowFor t p ≠ none) :
    (t.filter (fun x => x.path != p)).length + 1 = t.length := by
  induction t with
  | nil => exact absurd rfl hmem
  | cons a t ih =>
    rcases List.nodup_cons.mp hnd with ⟨hna, hnd2⟩
    by_cases ha : a.path = p
    · have hkeep : t.filter (fun x => x.path != p) = t := by
        rw [List.filter_eq_self]
        intro x hx
        simp only [bne_iff_ne, ne_eq]
        intro hxp
        have hmm : x.path ∈ t.map (fun r => r.path) :=
          List.mem_map_of_mem (fun r => r.path) hx
        rw [hxp, ← ha] at hmm
        exact hna hmm
      rw [List.filter_cons_of_neg (by simp [ha]), hkeep, List.length_cons]
    · have hmem2 : rowFor t p ≠ none := by
        unfold rowFor at hmem ⊢
        rwa [List.find?_cons_of_neg t (by simp [ha])] at hmem
      rw [List.filter_cons_of_pos (by simp [ha]), List.length_cons,
        List.length_cons, Nat.succ_add, ih hnd2 hmem2]

/-- C4: upserting a record for a path that already has a row fully replaces
the prior row and never creates a second one: (i) after any sequence of
inserts the table's paths are pairwise distinct; (ii) the row looked up
after an insert holds exactly the inserted fields; (iii) the row survives
unchanged through later inserts of other paths (its fields are those of the
last insert for that path); (iv) re-inserting a path already present leaves
the row count unchanged; (v) re-inserting a record with the current
`(content_hash, size_bytes)` leaves every path's `(content_hash,
size_bytes)` unchanged. -/
theorem upsert_replaces_c4 (l l2 : List FileData) (f : FileData) :
    ((tableOf l).map (fun r => r.path)).Nodup
  ∧ (rowFor (tableOf (l ++ [f])) f.path).map FileRow.toFileData = some f
  ∧ ((∀ g ∈ l2, g.path ≠ f.path) →
      rowFor (tableOf ((l ++ [f]) ++ l2)) f.path = rowFor (tableOf (l ++ [f])) f.path)
  ∧ (rowFor (tableOf l) f.path ≠ none →
      count_files (tableOf (l ++ [f])) = count_files (tableOf l))
  ∧ (∀ r, rowFor (tableOf l) f.path = some r → r.blake3 = f.blake3 →
      r.size_bytes = f.size_bytes →
      ∀ p, (rowFor (tableOf (l ++ [f])) p).map (fun x => (x.blake3, x.size_bytes))
        = (rowFor (tableOf l) p).map (fun x => (x.blake3, x.size_bytes))) := by
  have ht : tableOf (l ++ [f]) = insert_file (tableOf l) f := by
    simp [tableOf, List.foldl_append]
  refine ⟨tableOf_paths_nodup l, ?_, ?_, ?_, ?_⟩
  · rw [ht, rowFor_insert_self]
    rfl
  · intro h
    have ht2 : tableOf ((l ++ [f]) ++ l2) = l2.foldl insert_file (tableOf (l ++ [f])) := by
      simp [tableOf, List.foldl_append]
    rw [ht2, rowFor_foldl_other l2 _ f.path h]
  · intro h
    rw [ht]
    unfold count_files insert_file
    rw [List.length_append, List.length_singleton]
    exact length_filter_path (tableOf l) f.path (tableOf_paths_nodup l) h
  · intro r hr hb hsz p
    by_cases hp : p = f.path
    · subst hp
      rw [ht, rowFor_insert_self, hr]
      simp [hb, hsz]
    · rw [ht, rowFor_insert_other (tableOf l) f p hp]

def exDataA : FileData := process_file_record "/s/a.jpg" 40 "h1" 0 "image"

def exDataB : FileData := process_file_record "/s/b.jpg" 40 "h2" 86400 "image"

/-- C4 witness: a two-file catalog re-scanned with the same content for the
first path; the row count and each path's `(content_hash, size_bytes)` are
unchanged, and the path's row holds exactly the re-inserted fields. -/
theorem upsert_replaces_c4_witness :
    ((tableOf [exDataA, exDataB]).map (fun r => r.path)).Nodup
  ∧ (rowFor (tableOf ([exDataA, exDataB] ++ [exDataA])) exDataA.path).map
      FileRow.toFileData = some exDataA
  ∧ rowFor (tableOf (([exDataA, exDataB] ++ [exDataA]) ++ [exDataB])) exDataA.path
      = rowFor (tableOf ([exDataA, exDataB] ++ [exDataA])) exDataA.path
  ∧ count_files (tableOf ([exDataA, exDataB] ++ [exDataA]))
      = count_files (tableOf [exDataA, exDataB])
  ∧ (rowFor (tableOf ([exDataA, exDataB] ++ [exDataA])) "/s/b.jpg").map
        (fun x => (x.blake3, x.size_bytes))
      = (rowFor (tableOf [exDataA, exDataB]) "/s/b.jpg").map
        (fun x => (x.blake3, x.size_bytes)) := by
  have h := upsert_replaces_c4 [exDataA, exDataB] [exDataB] exDataA
  exact ⟨h.1, h.2.1, h.2.2.1 (by decide), h.2.2.2.1 (by decide),
    h.2.2.2.2 { toFileData := exDataA, rowid := 1 } (by decide) (by decide)
      (by decide) "/s/b.jpg"⟩

/-! ## C6 — collision suffixing -/

/-- The candidates whose existence the collision loop checks, in order:
the base name and the names with suffixes `_1` through `_8`. -/
def candList (dir tsStr ext : String) : List String :=
  [cand_name dir tsStr ext none,
   cand_name dir tsStr ext (some 1),
   cand_name dir tsStr ext (some 2),
   cand_name dir tsStr ext (some 3),
   cand_name dir tsStr ext (some 4),
   cand_name dir tsStr ext (some 5),
   cand_name dir tsStr ext (some 6),
   cand_name dir tsStr ext (some 7),
   cand_name dir tsStr ext (some 8)]

/-- C6: the collision loop uses the first of base, `_1`, ..., `_8` that does
not exist, and when all of those exist it uses `_9` without checking its
existence; concretely, placing two representatives that map to the same
destination filename leaves the second at the `_1`-suffixed name. -/
theorem collision_suffix_c6 :
    (∀ (ex : String → Bool) (dir tsStr ext : String),
      resolve_dest ex dir tsStr ext =
        ((candList dir tsStr ext).find? (fun c => !ex c)).getD
          (cand_name dir tsStr ext (some 9)))
  ∧ (build_run exCfgPlain exMimeDb (initState []) [exG1, exG2]).1.placed =
      [("/s/y.jpg", "/d/image/1970/01-01-1970_00:08:20_1.jpg"),
       ("/s/x.jpg", "/d/image/1970/01-01-1970_00:08:20.jpg")] := by
  constructor
  · intro ex dir tsStr ext
    cases h0 : ex (cand_name dir tsStr ext none) with
    | false => simp [resolve_dest, suffix_loop, candList, List.find?, h0]
    | true =>
    cases h1 : ex (cand_name dir tsStr ext (some 1)) with
    | false => simp [resolve_dest, suffix_loop, candList, List.find?, h0, h1]
    | true =>
    cases h2 : ex (cand_name dir tsStr ext (some 2)) with
    | false => simp [resolve_dest, suffix_loop, candList, List.find?, h0, h1, h2]
    | true =>
    cases h3 : ex (cand_name dir tsStr ext (some 3)) with
    | false => simp [resolve_dest, suffix_loop, candList, List.find?, h0, h1, h2, h3]
    | true =>
    cases h4 : ex (cand_name dir tsStr ext (some 4)) with
    | false => simp [resolve_dest, suffix_loop, candList, List.find?, h0, h1, h2, h3, h4]
    | true =>
    cases h5 : ex (cand_name dir tsStr ext (some 5)) with
    | false => simp [resolve_dest, suffix_loop, candList, List.find?, h0, h1, h2, h3, h4, h5]
    | true =>
    cases h6 : ex (cand_name dir tsStr ext (some 6)) with
    | false => simp [resolve_dest, suffix_loop, candList, List.find?, h0, h1, h2, h3, h4, h5, h6]
    | true =>
    cases h7 : ex (cand_name dir tsStr ext (some 7)) with
    | false =>
      simp [resolve_dest, suffix_loop, candList, List.find?, h0, h1, h2, h3, h4, h5, h6, h7]
    | true =>
    cases h8 : ex (cand_name dir tsStr ext (some 8)) with
    | false =>
      simp [resolve_dest, suffix_loop, candList, List.find?, h0, h1, h2, h3, h4, h5, h6, h7, h8]
    | true =>
      simp [resolve_dest, suffix_loop, candList, List.find?, h0, h1, h2, h3, h4, h5, h6, h7, h8]
  · decide

/-! ## C5 — sharding -/

/-- Modelled from the spec sentence for the sharded destination directory:
`<destination>/shard_N/<media_type>/<year>` with
`N = floor(running_total_bytes / split_threshold) + 1`, where
`running_total_bytes` accumulates the sizes of the selector-passing rows in
stream order (including the current row). -/
def shard_dirs_spec (cfg : BuildCfg) (db : String → Option String) (k : Nat) :
    Nat → List FileRow → List String
  | _, [] => []
  | base, f :: rest =>
    if passes_filter cfg db f then
      (cfg.destination ++ "/shard_" ++ toString ((base + f.size_bytes) / k + 1) ++ "/"
          ++ mimeTop (extract_mimetype db f.path) ++ "/" ++ toString (yearOf f.created_at))
        :: shard_dirs_spec cfg db k (base + f.size_bytes) rest
    else shard_dirs_spec cfg db k base rest

/-- C5: over a run of `build` with sharding enabled that completes without
error, the running total is the sum of the sizes of exactly the
selector-passing rows in stream order, and the directories created are,
in order, the spec's `shard_N` directories with
`N = floor(running_total / split_threshold) + 1` computed after adding each
passing row's size (so sizes 40, 40, 40 with `--split-at 100` go to shards
1, 1, 2). -/
theorem shard_packing_c5 (cfg : BuildCfg) (db : String → Option String)
    (k : Nat) (st st2 : BuildState) (l : List FileRow)
    (hk : cfg.split_at = some k)
    (hrun : build_run cfg db st l = (st2, none)) :
    st2.total_bytes = st.total_bytes
        + ((l.filter (passes_filter cfg db)).map (fun f => f.size_bytes)).sum
  ∧ st2.dirs = (shard_dirs_spec cfg db k st.total_bytes l).reverse ++ st.dirs := by
  induction l generalizing st with
  | nil =>
    have h2 : st = st2 := congrArg Prod.fst hrun
    subst h2
    simp [shard_dirs_spec]
  | cons f rest ih =>
    by_cases hpass : passes_filter cfg db f = true
    · by_cases hex : st.fs.contains (step_dest_path cfg db st f) = true
      · exfalso
        have hex2 : step_dest_path cfg db st f ∈ st.fs := by simpa using hex
        have hstep : build_step cfg db st f =
            ({ st with total_bytes := st.total_bytes + f.size_bytes,
                       dirs := step_dest_dir cfg db st f :: st.dirs },
             some ("symlink already exists or failed " ++ step_dest_path cfg db st f)) := by
          simp [build_step, hpass, hex2]
        rw [show build_run cfg db st (f :: rest) =
            (match build_step cfg db st f with
             | (st', none) => build_run cfg db st' rest
             | (st', some e) => (st', some e)) from rfl, hstep] at hrun
        exact Option.noConfusion (congrArg Prod.snd hrun)
      · have hex2 : ¬step_dest_path cfg db st f ∈ st.fs := by simpa using hex
        have hstep : build_step cfg db st f =
            ({ fs := step_dest_path cfg db st f :: st.fs,
               dirs := step_dest_dir cfg db st f :: st.dirs,
               total_bytes := st.total_bytes + f.size_bytes,
               placed := (f.path, step_dest_path cfg db st f) :: st.placed }, none) := by
          simp [build_step, hpass, hex2]
        have hrun2 : build_run cfg db
            { fs := step_dest_path cfg db st f :: st.fs,
              dirs := step_dest_dir cfg db st f :: st.dirs,
              total_bytes := st.total_bytes + f.size_bytes,
              placed := (f.path, step_dest_path cfg db st f) :: st.placed } rest
            = (st2, none) := by
          rw [show build_run cfg db st (f :: rest) =
              (match build_step cfg db st f with
               | (st', none) => build_run cfg db st' rest
               | (st', some e) => (st', some e)) from rfl, hstep] at hrun
          exact hrun
        rcases ih _ hrun2 with ⟨htot, hdirs⟩
        constructor
        · rw [htot]
          rw [@List.filter_cons_of_pos FileRow (passes_filter cfg db) f rest hpass,
            List.map_cons, List.sum_cons, Nat.add_assoc]
        · rw [hdirs]
          have hdir : step_dest_dir cfg db st f =
              cfg.destination ++ "/shard_"
                ++ toString ((st.total_bytes + f.size_bytes) / k + 1) ++ "/"
                ++ mimeTop (extract_mimetype db f.path) ++ "/"
                ++ toString (yearOf f.created_at) := by
            simp [step_dest_dir, dest_dir_for, hk]
          simp [shard_dirs_spec, hpass, hdir, List.reverse_cons, List.append_assoc]
    · have hpass2 : passes_filter cfg db f = false := by
        cases hq : passes_filter cfg db f
        · rfl
        · exact absurd hq hpass
      have hstep : build_step cfg db st f = (st, none) := by
        simp [build_step, hpass2]
      have hrun2 : build_run cfg db st rest = (st2, none) := by
        rw [show build_run cfg db st (f :: rest) =
            (match build_step cfg db st f with
             | (st', none) => build_run cfg db st' rest
             | (st', some e) => (st', some e)) from rfl, hstep] at hrun
        exact hrun
      rcases ih _ hrun2 with ⟨htot, hdirs⟩
      refine ⟨?_, ?_⟩
      · rw [htot]
        rw [@List.filter_cons_of_neg FileRow (passes_filter cfg db) f rest (by simp [hpass2])]
      · rw [hdirs]
        simp [shard_dirs_spec, hpass2]

/-- C5 witness: three representatives of sizes 40, 40, 40 with
`--split-at 100`: the created directories are `shard_1`, `shard_1`,
`shard_2` (most recent first in the trace) and the final running total is
120. -/
theorem shard_packing_c5_witness :
    exCfg40.split_at = some 100
  ∧ (build_run exCfg40 exMimeDb (initState []) [exF1, exF2, exF3]).1.dirs
      = ["/dst/shard_2/image/1970", "/dst/shard_1/image/1970", "/dst/shard_1/image/1970"]
  ∧ (build_run exCfg40 exMimeDb (initState []) [exF1, exF2, exF3]).1.total_bytes = 120 := by
  have h := shard_packing_c5 exCfg40 exMimeDb 100 (initState [])
    (build_run exCfg40 exMimeDb (initState []) [exF1, exF2, exF3]).1
    [exF1, exF2, exF3] rfl (by decide)
  exact ⟨rfl, h.2.trans (by decide), h.1.trans (by decide)⟩

/-! ## C7 — count_redundant -/

theorem countP_split {α : Type} (l : List α) (p q : α → Bool) :
    l.countP p = l.countP (fun a => p a && q a) + l.countP (fun a => p a && !q a) := by
  induction l with
  | nil => rfl
  | cons a l ih =>
    rw [List.countP_cons, List.countP_cons, List.countP_cons]
    cases hp : p a <;> cases hq : q a <;> simp [hp, hq, ih] <;> omega

theorem mem_distinctKeysAux (a : String × Nat) (l : List (String × Nat)) :
    ∀ seen, a ∈ l → a ∉ seen → a ∈ distinctKeysAux l seen := by
  induction l with
  | nil => intro seen ha _; exact absurd ha (List.not_mem_nil a)
  | cons k rest ih =>
    intro seen ha hs
    unfold distinctKeysAux
    by_cases hk : k ∈ seen
    · rw [if_pos hk]
      rcases List.mem_cons.mp ha with h | h
      · exact absurd (h ▸ hk) hs
      · exact ih seen h hs
    · rw [if_neg hk]
      rcases List.mem_cons.mp ha with h | h
      · exact h ▸ List.mem_cons_self k _
      · by_cases hak : a = k
        · exact hak ▸ List.mem_cons_self k _
        · exact List.mem_cons_of_mem k (ih (k :: seen) h
            (fun hx => (List.mem_cons.mp hx).elim hak hs))

theorem distinctKeysAux_subset (b : String × Nat) (l : List (String × Nat)) :
    ∀ seen, b ∈ distinctKeysAux l seen → b ∈ l := by
  induction l with
  | nil => intro seen hb; exact absurd hb (List.not_mem_nil b)
  | cons k rest ih =>
    intro seen hb
    unfold distinctKeysAux at hb
    by_cases hk : k ∈ seen
    · rw [if_pos hk] at hb
      exact List.mem_cons_of_mem k (ih seen hb)
    · rw [if_neg hk] at hb
      rcases List.mem_cons.mp hb with h | h
      · exact h ▸ List.mem_cons_self b _
      · exact List.mem_cons_of_mem k (ih (k :: seen) h)

theorem distinctKeysAux_not_seen (b : String × Nat) (l : List (String × Nat)) :
    ∀ seen, b ∈ distinctKeysAux l seen → b ∉ seen := by
  induction l with
  | nil => intro seen hb; exact absurd hb (List.not_mem_nil b)
  | cons k rest ih =>
    intro seen hb
    unfold distinctKeysAux at hb
    by_cases hk : k ∈ seen
    · rw [if_pos hk] at hb
      exact ih seen hb
    · rw [if_neg hk] at hb
      rcases List.mem_cons.mp hb with h | h
      · exact h ▸ hk
      · intro hbs
        exact ih (k :: seen) h (List.mem_cons_of_mem k hbs)

theorem sum_counts_aux (l : List (String × Nat)) :
    ∀ seen, ((distinctKeysAux l seen).map (fun k => l.count k)).sum
      = l.countP (fun x => decide (x ∉ seen)) := by
  induction l with
  | nil => intro seen; simp [distinctKeysAux]
  | cons k rest ih =>
    intro seen
    by_cases hk : k ∈ seen
    · rw [show distinctKeysAux (k :: rest) seen = distinctKeysAux rest seen from by
        simp [distinctKeysAux, hk]]
      have hmap : (distinctKeysAux rest seen).map (fun x => (k :: rest).count x)
          = (distinctKeysAux rest seen).map (fun x => rest.count x) := by
        apply List.map_congr_left
        intro b hb
        have hbk : b ≠ k := fun hbk =>
          (distinctKeysAux_not_seen b rest seen hb) (hbk ▸ hk)
        rw [List.count_cons]
        simp [beq_eq_false_iff_ne.mpr (Ne.symm hbk)]
      rw [hmap, ih seen, List.countP_cons]
      simp [hk]
    · rw [show distinctKeysAux (k :: rest) seen = k :: distinctKeysAux rest (k :: seen) from by
        simp [distinctKeysAux, hk]]
      rw [List.map_cons, List.sum_cons]
      have hmap : (distinctKeysAux rest (k :: seen)).map (fun x => (k :: rest).count x)
          = (distinctKeysAux rest (k :: seen)).map (fun x => rest.count x) := by
        apply List.map_congr_left
        intro b hb
        have hbk : b ≠ k := fun hbk =>
          (distinctKeysAux_not_seen b rest (k :: seen) hb) (hbk ▸ List.mem_cons_self k seen)
        rw [List.count_cons]
        simp [beq_eq_false_iff_ne.mpr (Ne.symm hbk)]
      rw [hmap, ih (k :: seen)]
      rw [List.count_cons, List.countP_cons]
      have hsplit := countP_split rest (fun x => decide (x ∉ seen)) (fun x => x == k)
      have h1 : rest.countP (fun x => decide (x ∉ seen) && (x == k))
          = rest.count k := by
        apply List.countP_congr
        intro x _
        constructor
        · intro hand
          exact (Bool.and_eq_true _ _).mp hand |>.2
        · intro hx
          have hxk : x = k := by simpa using hx
          subst hxk
          simp [hk]
      have h2 : rest.countP (fun x => decide (x ∉ seen) && !(x == k))
          = rest.countP (fun x => decide (x ∉ k :: seen)) := by
        apply List.countP_congr
        intro x _
        by_cases hxk : x = k <;> by_cases hxs : x ∈ seen <;> simp [hxk, hxs]
      have e1 : (if (k == k) = true then 1 else 0) = 1 := by simp
      have e2 : (if decide (k ∉ seen) = true then 1 else 0) = 1 := by simp [hk]
      rw [e1, e2, hsplit, h1, h2]
      omega

theorem groupKeys_counts_length (t : Table) :
    ((groupKeys t).map (classCount t)).sum = count_files t := by
  unfold groupKeys classCount count_files
  have h := sum_counts_aux (t.map keyOf) []
  have h2 : (t.map keyOf).countP (fun x => decide (x ∉ ([] : List (String × Nat))))
      = (t.map keyOf).length := by
    rw [← List.countP_true]
    apply List.countP_congr
    intro x _
    simp
  rw [h, h2, List.length_map]

theorem sum_sub_one_filter (cs : List Nat) :
    ((cs.filter (fun c => decide (1 < c))).map (fun c => c - 1)).sum
      = (cs.map (fun c => c - 1)).sum := by
  induction cs with
  | nil => rfl
  | cons c cs ih =>
    by_cases hc : 1 < c
    · rw [@List.filter_cons_of_pos Nat (fun c => decide (1 < c)) c cs (by simpa using hc),
        List.map_cons, List.sum_cons, List.map_cons, List.sum_cons, ih]
    · rw [@List.filter_cons_of_neg Nat (fun c => decide (1 < c)) c cs (by simpa using hc),
        List.map_cons, List.sum_cons, ih]
      have hz : c - 1 = 0 := by omega
      rw [hz, Nat.zero_add]

theorem length_le_sum (cs : List Nat) (h : ∀ c ∈ cs, 1 ≤ c) :
    cs.length ≤ cs.sum := by
  induction cs with
  | nil => simp
  | cons c cs ih =>
    rw [List.length_cons, List.sum_cons]
    have hc := h c (List.mem_cons_self c cs)
    have hr := ih (fun x hx => h x (List.mem_cons_of_mem c hx))
    omega

theorem sum_sub_one (cs : List Nat) (h : ∀ c ∈ cs, 1 ≤ c) :
    (cs.map (fun c => c - 1)).sum = cs.sum - cs.length := by
  induction cs with
  | nil => rfl
  | cons c cs ih =>
    rw [List.map_cons, List.sum_cons, List.sum_cons, List.length_cons,
      ih (fun x hx => h x (List.mem_cons_of_mem c hx))]
    have hc := h c (List.mem_cons_self c cs)
    have hr := length_le_sum cs (fun x hx => h x (List.mem_cons_of_mem c hx))
    omega

/-- C7 counterexample: on a catalog where no equivalence class has more than
one row, `COUNT_REDUNDANT_FILES` sums over an empty set, which is SQL
`NULL`: `count_redundant_files` yields an error (modelled `none`), not 0. -/
theorem count_redundant_c7_counterexample :
    count_redundant_files [exG1] = none
  ∧ count_redundant_files [exG1] ≠ some 0
  ∧ count_files [exG1] = 1 := ⟨rfl, by decide, rfl⟩

/-- C7 amended: when at least one equivalence class has more than one row,
`count_redundant_files` returns the sum over all equivalence classes of
`(class_size - 1)`, which equals `count_all()` minus the number of distinct
classes; but when no class has more than one row it yields SQL `NULL`
(an error in the caller), not 0. -/
theorem count_redundant_c7_amended (t : Table) (h : ∃ k, 1 < classCount t k) :
    count_redundant_files t
        = some ((((groupKeys t).map (classCount t)).map (fun c => c - 1)).sum)
  ∧ count_redundant_files t = some (count_files t - (groupKeys t).length) := by
  obtain ⟨k, hk⟩ := h
  have hkmem : k ∈ groupKeys t := by
    have hpos : 0 < classCount t k := by omega
    have hmem : k ∈ t.map keyOf := List.count_pos_iff.mp hpos
    exact mem_distinctKeysAux k (t.map keyOf) [] hmem (List.not_mem_nil k)
  have hdmem : classCount t k ∈
      ((groupKeys t).map (classCount t)).filter (fun c => decide (1 < c)) :=
    List.mem_filter.mpr ⟨List.mem_map_of_mem _ hkmem, by simpa using hk⟩
  have heq : count_redundant_files t = some
      (((((groupKeys t).map (classCount t)).filter (fun c => decide (1 < c))).map
        (fun c => c - 1)).sum) := by
    unfold count_redundant_files
    rcases hcase : ((groupKeys t).map (classCount t)).filter (fun c => decide (1 < c))
      with _ | ⟨c, cs⟩
    · rw [hcase] at hdmem
      exact absurd hdmem (List.not_mem_nil _)
    · rfl
  have hall : ∀ c ∈ (groupKeys t).map (classCount t), 1 ≤ c := by
    intro c hc
    rcases List.mem_map.mp hc with ⟨k2, hk2, hck⟩
    have : k2 ∈ t.map keyOf := distinctKeysAux_subset k2 (t.map keyOf) [] hk2
    have hpos : 0 < (t.map keyOf).count k2 := List.count_pos_iff.mpr this
    rw [← hck]
    exact hpos
  refine ⟨?_, ?_⟩
  · rw [heq, sum_sub_one_filter]
  · rw [heq, sum_sub_one_filter, sum_sub_one _ hall, groupKeys_counts_length,
      List.length_map]

def exDup : FileRow := exRow "/s/z.jpg" 10 "k1" 600 3

/-- C7 witness: the amended statement on a catalog with one duplicated
class (two rows of key `("k1", 10)`) and one singleton class. -/
theorem count_redundant_c7_witness :
    count_redundant_files [exG1, exG2, exDup]
        = some ((((groupKeys [exG1, exG2, exDup]).map (classCount [exG1, exG2, exDup])).map
          (fun c => c - 1)).sum)
  ∧ count_redundant_files [exG1, exG2, exDup]
      = some (count_files [exG1, exG2, exDup] - (groupKeys [exG1, exG2, exDup]).length) :=
  count_redundant_c7_amended [exG1, exG2, exDup] ⟨("k1", 10), by decide⟩

/-! ## C1 — mark_originals marks exactly the earliest row of each class -/

theorem sameClass_refl (a : FileRow) : sameClass a a = true := by
  simp [sameClass]

theorem sameClass_iff (a b : FileRow) :
    sameClass a b = true ↔ (a.blake3 = b.blake3 ∧ a.size_bytes = b.size_bytes) := by
  simp [sameClass]

theorem lexLe_iff (a b : FileRow) :
    lexLe a b = true ↔ (a.created_at < b.created_at
      ∨ (a.created_at = b.created_at ∧ a.rowid ≤ b.rowid)) := by
  simp [lexLe]

theorem lexLe_refl (a : FileRow) : lexLe a a = true := by
  rw [lexLe_iff]; omega

theorem lexLe_total (a b : FileRow) : lexLe a b = true ∨ lexLe b a = true := by
  rw [lexLe_iff, lexLe_iff]; omega

theorem lexLe_trans {a b c : FileRow} (h1 : lexLe a b = true)
    (h2 : lexLe b c = true) : lexLe a c = true := by
  rw [lexLe_iff] at h1 h2 ⊢; omega

theorem lexMin_unfold_none (a : FileRow) (rest : List FileRow)
    (hr : lexMin rest = none) : lexMin (a :: rest) = some a := by
  unfold lexMin
  rw [hr]

theorem lexMin_unfold_some (a b : FileRow) (rest : List FileRow)
    (hr : lexMin rest = some b) :
    lexMin (a :: rest) = some (if lexLe a b then a else b) := by
  unfold lexMin
  rw [hr]

theorem lexMin_isSome (l : List FileRow) (h : l ≠ []) : ∃ m, lexMin l = some m := by
  cases l with
  | nil => exact absurd rfl h
  | cons a rest =>
    cases hr : lexMin rest with
    | none => exact ⟨a, lexMin_unfold_none a rest hr⟩
    | some b => exact ⟨if lexLe a b then a else b, lexMin_unfold_some a b rest hr⟩

theorem lexMin_mem : ∀ (l : List FileRow) (m : FileRow), lexMin l = some m → m ∈ l := by
  intro l
  induction l with
  | nil => intro m hm; exact Option.noConfusion hm
  | cons a rest ih =>
    intro m hm
    cases hr : lexMin rest with
    | none =>
      rw [lexMin_unfold_none a rest hr] at hm
      exact (Option.some_inj.mp hm) ▸ List.mem_cons_self a rest
    | some b =>
      rw [lexMin_unfold_some a b rest hr] at hm
      by_cases hab : lexLe a b = true
      · rw [if_pos hab] at hm
        exact (Option.some_inj.mp hm) ▸ List.mem_cons_self a rest
      · rw [if_neg hab] at hm
        exact List.mem_cons_of_mem a ((Option.some_inj.mp hm) ▸ ih b hr)

theorem lexMin_le : ∀ (l : List FileRow) (m : FileRow), lexMin l = some m →
    ∀ b ∈ l, lexLe m b = true := by
  intro l
  induction l with
  | nil => intro m hm; exact Option.noConfusion hm
  | cons a rest ih =>
    intro m hm b hb
    cases hr : lexMin rest with
    | none =>
      rw [lexMin_unfold_none a rest hr] at hm
      have hm2 := Option.some_inj.mp hm
      subst hm2
      cases rest with
      | nil =>
        rcases List.mem_singleton.mp hb with rfl
        exact lexLe_refl b
      | cons c rest2 =>
        rcases lexMin_isSome (c :: rest2) (by simp) with ⟨m2, hm2⟩
        rw [hm2] at hr
        exact Option.noConfusion hr
    | some b0 =>
      rw [lexMin_unfold_some a b0 rest hr] at hm
      have hm2 := Option.some_inj.mp hm
      rcases List.mem_cons.mp hb with hba | hbr
      · by_cases hab : lexLe a b0 = true
        · rw [if_pos hab] at hm2; subst hm2; rw [hba]; exact lexLe_refl a
        · rw [if_neg hab] at hm2; subst hm2
          rw [hba]
          rcases lexLe_total a b0 with h | h
          · exact absurd h hab
          · exact h
      · have hb0 := ih b0 hr b hbr
        by_cases hab : lexLe a b0 = true
        · rw [if_pos hab] at hm2; subst hm2
          exact lexLe_trans hab hb0
        · rw [if_neg hab] at hm2; subst hm2
          exact hb0

theorem filter_rowid_eq (l : List FileRow) (r0 : FileRow)
    (hnd : (l.map FileRow.rowid).Nodup) (hr0 : r0 ∈ l) :
    l.filter (fun r => r0.rowid == r.rowid) = [r0] := by
  induction l with
  | nil => exact absurd hr0 (List.not_mem_nil r0)
  | cons a rest ih =>
    rcases List.nodup_cons.mp hnd with ⟨hna, hnd2⟩
    rcases List.mem_cons.mp hr0 with h | h
    · subst h
      rw [List.filter_cons_of_pos (by simp)]
      have hrest : rest.filter (fun r => r0.rowid == r.rowid) = [] := by
        rw [List.filter_eq_nil_iff]
        intro x hx
        simp only [beq_iff_eq]
        intro hcontra
        exact hna (hcontra ▸ List.mem_map_of_mem FileRow.rowid hx)
      rw [hrest]
    · have hne : r0.rowid ≠ a.rowid := by
        intro hcontra
        exact hna (hcontra ▸ List.mem_map_of_mem FileRow.rowid h)
      rw [List.filter_cons_of_neg (by simpa using hne), ih hnd2 h]

/-- C1: after `mark_original_files`, every nonempty equivalence class
(witnessed by a member `a` of the catalog) contains exactly one row with
`is_original = true`, and that row is the class member with the minimum
`(created_at, rowid)` pair — rowid being SQLite's insertion order, breaking
ties between equal timestamps. Distinct rowids are an SQLite invariant. -/
theorem mark_originals_c1 (t : Table) (a : FileRow)
    (hnd : (t.map FileRow.rowid).Nodup) (ha : a ∈ t) :
    ∃ r0, r0 ∈ t ∧ sameClass a r0 = true
      ∧ (∀ r ∈ t, sameClass a r = true → lexLe r0 r = true)
      ∧ (mark_original_files t).filter (fun r => sameClass a r && r.is_original)
          = [{ r0 with is_original := true }] := by
  have hCne : t.filter (sameClass a) ≠ [] :=
    List.ne_nil_of_mem (List.mem_filter.mpr ⟨ha, sameClass_refl a⟩)
  obtain ⟨r0, hr0⟩ := lexMin_isSome (t.filter (sameClass a)) hCne
  have hr0C := lexMin_mem _ r0 hr0
  rcases List.mem_filter.mp hr0C with ⟨hr0t, hr0a⟩
  have hclassOf : ∀ r : FileRow, sameClass a r = true →
      classRowsOf t r = t.filter (sameClass a) := by
    intro r hra
    unfold classRowsOf
    apply List.filter_congr
    intro s _
    rcases (sameClass_iff a r).mp hra with ⟨hb, hs⟩
    unfold sameClass
    rw [← hb, ← hs]
  refine ⟨r0, hr0t, hr0a, ?_, ?_⟩
  · intro r hrt hra
    exact lexMin_le _ r0 hr0 r (List.mem_filter.mpr ⟨hrt, hra⟩)
  · unfold mark_original_files
    rw [List.filter_map]
    have hcong : t.filter ((fun r => sameClass a r && r.is_original) ∘ (fun r =>
        { r with is_original :=
            (lexMin (classRowsOf t r)).map FileRow.rowid == some r.rowid }))
        = t.filter (fun r => (r0.rowid == r.rowid) && sameClass a r) := by
      apply List.filter_congr
      intro r _
      show (sameClass a r && ((lexMin (classRowsOf t r)).map FileRow.rowid == some r.rowid))
        = ((r0.rowid == r.rowid) && sameClass a r)
      by_cases hra : sameClass a r = true
      · rw [hclassOf r hra, hr0, hra]
        show (true && (r0.rowid == r.rowid)) = ((r0.rowid == r.rowid) && true)
        rw [Bool.true_and, Bool.and_true]
      · have hra2 : sameClass a r = false := by
          cases hq : sameClass a r
          · rfl
          · exact absurd hq hra
        rw [hra2, Bool.false_and, Bool.and_false]
    rw [hcong,
      show t.filter (fun r => (r0.rowid == r.rowid) && sameClass a r)
        = (t.filter (sameClass a)).filter (fun r => r0.rowid == r.rowid) from
        (List.filter_filter _ _).symm,
      filter_rowid_eq (t.filter (sameClass a)) r0
        (((List.filter_sublist t).map FileRow.rowid).nodup hnd) hr0C,
      List.map_cons, List.map_nil]
    have hleader : ((lexMin (classRowsOf t r0)).map FileRow.rowid == some r0.rowid) = true := by
      rw [hclassOf r0 hr0a, hr0]
      show (some r0.rowid == some r0.rowid) = true
      simp
    rw [hleader]

def exM1 : FileRow := exRow "/p/a.jpg" 7 "hm" 100 1

def exM2 : FileRow := exRow "/p/b.jpg" 7 "hm" 50 2

def exM3 : FileRow := exRow "/p/c.jpg" 7 "hm" 50 3

def exM4 : FileRow := exRow "/p/d.jpg" 9 "hz" 10 4

/-- C1 witness: a catalog with a three-row class (timestamps 100, 50, 50 and
rowids 1, 2, 3) and a singleton class; the marked original of the first
class is the row with `(created_at, rowid) = (50, 2)`. -/
theorem mark_originals_c1_witness :
    ∃ r0, r0 ∈ [exM1, exM2, exM3, exM4] ∧ sameClass exM1 r0 = true
      ∧ (∀ r ∈ [exM1, exM2, exM3, exM4], sameClass exM1 r = true → lexLe r0 r = true)
      ∧ (mark_original_files [exM1, exM2, exM3, exM4]).filter
          (fun r => sameClass exM1 r && r.is_original) = [{ r0 with is_original := true }] :=
  mark_originals_c1 [exM1, exM2, exM3, exM4] exM1 (by decide) (by decide)

/-! ## C2 — the unique-ordered query -/

def exCA : FileRow := exRow "/q/a.jpg" 5 "s" 0 1

def exCB : FileRow := exRow "/q/b.jpg" 5 "s" 5 2

theorem fpc_subset (r : FileRow) : ∀ (l : List FileRow) (seen : List (String × Nat)),
    r ∈ first_per_class l seen → r ∈ l := by
  intro l
  induction l with
  | nil => intro seen hr; exact absurd hr (List.not_mem_nil r)
  | cons x rest ih =>
    intro seen hr
    unfold first_per_class at hr
    by_cases hx : keyOf x ∈ seen
    · rw [if_pos hx] at hr
      exact List.mem_cons_of_mem x (ih seen hr)
    · rw [if_neg hx] at hr
      rcases List.mem_cons.mp hr with h | h
      · exact h ▸ List.mem_cons_self x rest
      · exact List.mem_cons_of_mem x (ih (keyOf x :: seen) h)

theorem fpc_countP (k : String × Nat) : ∀ (l : List FileRow) (seen : List (String × Nat)),
    (first_per_class l seen).countP (fun r => keyOf r == k)
      = if k ∈ seen then 0 else if l.any (fun r => keyOf r == k) then 1 else 0 := by
  intro l
  induction l with
  | nil =>
    intro seen
    by_cases hks : k ∈ seen <;> simp [first_per_class, hks]
  | cons r rest ih =>
    intro seen
    unfold first_per_class
    by_cases hr : keyOf r ∈ seen
    · rw [if_pos hr, ih seen]
      by_cases hks : k ∈ seen
      · rw [if_pos hks, if_pos hks]
      · have hrk : (keyOf r == k) = false :=
          beq_eq_false_iff_ne.mpr (fun h => hks (h ▸ hr))
        rw [if_neg hks, if_neg hks, List.any_cons, hrk, Bool.false_or]
    · rw [if_neg hr, List.countP_cons, ih (keyOf r :: seen)]
      by_cases hks : k ∈ seen
      · have hrk : (keyOf r == k) = false :=
          beq_eq_false_iff_ne.mpr (fun h => hr (h ▸ hks))
        rw [if_pos (List.mem_cons_of_mem _ hks), if_pos hks, hrk]
        rfl
      · by_cases hkr : keyOf r = k
        · have hmem : k ∈ keyOf r :: seen := by
            rw [hkr]; exact List.mem_cons_self k seen
          have hany : (r :: rest).any (fun x => keyOf x == k) = true := by
            rw [List.any_cons]
            simp [hkr]
          rw [if_pos hmem, if_neg hks, hany, if_pos rfl]
          simp [hkr]
        · have hmem : k ∉ keyOf r :: seen := by
            intro hx
            rcases List.mem_cons.mp hx with h | h
            · exact hkr h.symm
            · exact hks h
          have hrk : (keyOf r == k) = false := beq_eq_false_iff_ne.mpr hkr
          rw [if_neg hmem, if_neg hks, List.any_cons, hrk, Bool.false_or]
          simp [hrk]

/-- C2 counterexample: the window `ROW_NUMBER() OVER (PARTITION BY blake3,
size_bytes)` carries no `ORDER BY`, so the row numbered 1 in a class is the
first row of that class in SQLite's unspecified processing order, not
necessarily the earliest-created row: with the two-row class processed
later-created-first, the query returns the later-created row even though an
earlier-created classmate exists. -/
theorem unique_ordered_c2_counterexample :
    List.Perm [exCB, exCA] [exCA, exCB]
  ∧ find_unique_files_ordered [exCB, exCA] = [exCB]
  ∧ exCA ∈ ([exCA, exCB] : List FileRow)
  ∧ keyOf exCA = keyOf exCB
  ∧ exCA.created_at < exCB.created_at :=
  ⟨List.Perm.swap exCA exCB [], by decide, by decide, by decide, by decide⟩

/-- C2 amended: for every catalog state and every (unspecified) window
processing order — any permutation of the table — the query returns exactly
one row per equivalence class present in the table, every returned row is a
table row, and the returned stream is globally ordered by creation time;
the representative of a class is the first class row in the processing
order, not necessarily the earliest-created one. -/
theorem unique_ordered_c2_amended (t proc : List FileRow) (hperm : proc.Perm t) :
    (∀ k : String × Nat,
      (find_unique_files_ordered proc).countP (fun r => keyOf r == k)
        = if t.any (fun r => keyOf r == k) then 1 else 0)
  ∧ List.Sorted createdLe (find_unique_files_ordered proc)
  ∧ (∀ r ∈ find_unique_files_ordered proc, r ∈ t) := by
  refine ⟨?_, ?_, ?_⟩
  · intro k
    unfold find_unique_files_ordered
    rw [List.Perm.countP_eq (fun r => keyOf r == k)
      (List.perm_insertionSort createdLe (first_per_class proc [])),
      fpc_countP k proc [], if_neg (List.not_mem_nil k)]
    have hiff : proc.any (fun r => keyOf r == k) = true
        ↔ t.any (fun r => keyOf r == k) = true := by
      rw [List.any_eq_true, List.any_eq_true]
      exact ⟨fun ⟨x, hx, hq⟩ => ⟨x, hperm.mem_iff.mp hx, hq⟩,
             fun ⟨x, hx, hq⟩ => ⟨x, hperm.mem_iff.mpr hx, hq⟩⟩
    have hany : proc.any (fun r => keyOf r == k) = t.any (fun r => keyOf r == k) := by
      cases ht2 : t.any (fun r => keyOf r == k) with
      | true => exact hiff.mpr ht2
      | false =>
        cases hp : proc.any (fun r => keyOf r == k) with
        | false => rfl
        | true =>
          have hcontra := hiff.mp hp
          rw [ht2] at hcontra
          exact Bool.noConfusion hcontra
    rw [hany]
  · exact List.sorted_insertionSort createdLe (first_per_class proc [])
  · intro r hr
    have hr2 : r ∈ first_per_class proc [] :=
      (List.perm_insertionSort createdLe (first_per_class proc [])).mem_iff.mp hr
    exact hperm.mem_iff.mp (fpc_subset r proc [] hr2)

/-- C2 witness: the amended statement at the concrete two-row class and the
later-first processing order. -/
theorem unique_ordered_c2_witness :
    ((find_unique_files_ordered [exCB, exCA]).countP (fun r => keyOf r == ("s", 5))
        = if ([exCA, exCB] : List FileRow).any (fun r => keyOf r == ("s", 5)) then 1 else 0)
  ∧ List.Sorted createdLe (find_unique_files_ordered [exCB, exCA])
  ∧ exCB ∈ ([exCA, exCB] : List FileRow) := by
  have h := unique_ordered_c2_amended [exCA, exCB] [exCB, exCA]
    (List.Perm.swap exCA exCB [])
  exact ⟨h.1 ("s", 5), h.2.1, h.2.2 exCB (by decide)⟩

end Deduper
